import Mathlib

/-!
Shallow embedding of the pub-sub log aggregator service (src/aggregator/app.py).

The durable store (PostgreSQL) is modelled as an explicit state: the
processed_events table as a list of rows in insertion order, the singleton
stats row as three counters, and a logical clock standing for NOW() that
assigns received_at values.  The idempotent insert runs as a transaction on a
working copy of the state: a commit publishes the working copy, a rollback
discards it.  Store failures are modelled by an injected fault point inside
the transaction and by an availability schedule for connection attempts.
The Flask endpoints publish and publish batch, the in-memory event queue and
the background worker loop are embedded as pure state-passing functions.
-/

/-- A row of the processed_events table (a Stored Record). -/
structure EventRec where
  event_id : String
  topic : String
  timestamp : Nat
  source : String
  payload : String
  received_at : Nat
deriving Repr, DecidableEq

/-- Durable store state: the processed_events rows in insertion order, the
singleton stats row (received, unique_processed, duplicate_dropped) and the
clock used to assign received_at. -/
structure DB where
  records : List EventRec
  received : Nat
  unique_processed : Nat
  duplicate_dropped : Nat
  clock : Nat
deriving Repr, DecidableEq

/-- An event as it sits in the in-memory ingest queue after validation, with
the field order used by the worker when calling insert_event. -/
structure QEvent where
  topic : String
  event_id : String
  source : String
  timestamp : Nat
  payload : String
deriving Repr, DecidableEq

def connErrMsg : String := "Failed to connect to database"

/-- Embedding of get_db_connection: up to max_retries = 5 connection attempts,
described by the availability schedule avail (entry i tells whether attempt i
would succeed); the function returns on the first successful attempt and
raises after the fifth failure. -/
def get_db_connection (avail : List Bool) : Except String Unit :=
  if (avail.take 5).any (fun b => b) then Except.ok ()
  else Except.error connErrMsg

/-- Injected failure point inside the insert transaction: the INSERT
statement, the stats UPDATE statement, or the COMMIT may raise a generic
(non-integrity) store error. -/
inductive Fault
  | fnone
  | fInsert
  | fUpdate
  | fCommit
deriving Repr, DecidableEq

/-- Errors raised by statements of the insert transaction: the violation of
the UNIQUE constraint on event_id, or any other store failure. -/
inductive TxnErr
  | integrity
  | other
deriving Repr, DecidableEq

/-- Whether a Stored Record with the given event_id already exists, as checked
by the UNIQUE constraint on processed_events.event_id. -/
def dupKey (db : DB) (id : String) : Bool :=
  db.records.any (fun r => decide (r.event_id = id))

/-- The row inserted for an event, with received_at supplied by the clock. -/
def newRec (db : DB) (ev : QEvent) : EventRec :=
  ⟨ev.event_id, ev.topic, ev.timestamp, ev.source, ev.payload, db.clock⟩

/-- The INSERT INTO processed_events statement, executed on the working state
of the transaction: it raises IntegrityError when a row with the same
event_id exists, a generic error when the injected fault hits this statement,
and otherwise appends the new row. -/
def insertStmt (f : Fault) (w : DB) (ev : QEvent) : Except TxnErr DB :=
  if f = Fault.fInsert then Except.error TxnErr.other
  else if dupKey w ev.event_id then Except.error TxnErr.integrity
  else Except.ok { w with records := w.records ++ [newRec w ev], clock := w.clock + 1 }

/-- The UPDATE stats SET unique_processed = unique_processed + 1 statement of
the insert transaction. -/
def updateUnique (f : Fault) (w : DB) : Except TxnErr DB :=
  if f = Fault.fUpdate then Except.error TxnErr.other
  else Except.ok { w with unique_processed := w.unique_processed + 1 }

/-- The COMMIT of the insert transaction. -/
def commitStmt (f : Fault) (w : DB) : Except TxnErr DB :=
  if f = Fault.fCommit then Except.error TxnErr.other
  else Except.ok w

/-- The transaction body of insert_event: INSERT, stats UPDATE, COMMIT, run on
a working copy of the durable state. -/
def txnAttempt (f : Fault) (db : DB) (ev : QEvent) : Except TxnErr DB :=
  (insertStmt f db ev).bind (fun w => (updateUnique f w).bind (commitStmt f))

/-- Durable state after a committed Created persist: the new Stored Record is
appended and unique_processed is incremented, in one atomic step. -/
def createdDB (db : DB) (ev : QEvent) : DB :=
  { db with
    records := db.records ++ [newRec db ev],
    unique_processed := db.unique_processed + 1,
    clock := db.clock + 1 }

/-- Durable state after a Duplicate persist: only duplicate_dropped moves. -/
def dupDB (db : DB) : DB :=
  { db with duplicate_dropped := db.duplicate_dropped + 1 }

/-- Embedding of insert_event.  The connection is obtained before the try
block, so a connection failure raises out of the function (the Except.error
case).  With a connection, the transaction runs: on success the working state
is committed and (true, false) is returned (Created); on IntegrityError the
transaction is rolled back, the duplicate observation is recorded and
committed, and (true, true) is returned (Duplicate); on any other error the
transaction is rolled back, the durable state is unchanged and
(false, false) is returned (Failed). -/
def insert_event (avail : List Bool) (f : Fault) (db : DB) (ev : QEvent) :
    Except String (DB × Bool × Bool) :=
  match get_db_connection avail with
  | Except.error e => Except.error e
  | Except.ok _ =>
    match txnAttempt f db ev with
    | Except.ok w => Except.ok (w, true, false)
    | Except.error TxnErr.integrity => Except.ok (dupDB db, true, true)
    | Except.error TxnErr.other => Except.ok (db, false, false)

/-- The atomic UPDATE of the received counter in the stats row: the body of
increment_received once a connection is held. -/
def bumpReceived (db : DB) : DB :=
  { db with received := db.received + 1 }

/-- Embedding of increment_received: the source function first calls
get_db_connection, which raises when all five attempts fail, and only then
runs the atomic UPDATE of the received counter. -/
def increment_received (avail : List Bool) (db : DB) : Except String DB :=
  match get_db_connection avail with
  | Except.error e => Except.error e
  | Except.ok _ => Except.ok (bumpReceived db)

/-- An incoming JSON event at the gateway: each required field may be present
or missing. -/
structure ReqEvent where
  topic : Option String
  event_id : Option String
  timestamp : Option String
  source : Option String
  payload : Option String
deriving Repr, DecidableEq

/-- Server state shared by the gateway and the workers: the in-memory ingest
queue and the durable store. -/
structure SState where
  queue : List QEvent
  db : DB
deriving Repr, DecidableEq

/-- Embedding of the publish endpoint, parameterised by the timestamp parser
(datetime.fromisoformat composed with the Z replacement).  A missing required
field or an unparseable timestamp is rejected with status 400 before the
event is enqueued and before the received counter is touched; otherwise the
event is appended to the queue, received is incremented, and 202 returned.
This function embeds the endpoint in the runs where the received update
succeeds; publish_f below is the embedding with the fallible
increment_received. -/
def publish (parseTs : String → Option Nat) (st : SState) (data : ReqEvent) :
    SState × Nat :=
  match data.topic, data.event_id, data.timestamp, data.source, data.payload with
  | some tp, some eid, some tsStr, some src, some pl =>
    match parseTs tsStr with
    | none => (st, 400)
    | some ts =>
      let st1 : SState := { st with queue := st.queue ++ [⟨tp, eid, src, ts, pl⟩] }
      ({ st1 with db := bumpReceived st1.db }, 202)
  | _, _, _, _, _ => (st, 400)

/-- Loop body of the publish batch endpoint: events are validated, enqueued
and counted one at a time; the first invalid event returns a 400 response at
once, keeping earlier events enqueued and leaving later events unread. -/
def batchGo (parseTs : String → Option Nat) (st : SState) (count : Nat) :
    List ReqEvent → SState × Nat × Nat
  | [] => (st, 202, count)
  | e :: rest =>
    match e.topic, e.event_id, e.timestamp, e.source, e.payload with
    | some tp, some eid, some tsStr, some src, some pl =>
      match parseTs tsStr with
      | none => (st, 400, count)
      | some ts =>
        let st1 : SState := { st with queue := st.queue ++ [⟨tp, eid, src, ts, pl⟩] }
        batchGo parseTs { st1 with db := bumpReceived st1.db } (count + 1) rest
    | _, _, _, _, _ => (st, 400, count)

/-- Embedding of the publish batch endpoint. -/
def publish_batch (parseTs : String → Option Nat) (st : SState)
    (events : List ReqEvent) : SState × Nat × Nat :=
  batchGo parseTs st 0 events

/-- Embedding of the publish endpoint with the fallible increment_received:
the event is appended to the queue before increment_received runs, so when
increment_received raises (no store connection at the gateway) the event
stays enqueued while received is not incremented, and Flask turns the
uncaught exception into a 500 response.  With a reachable store this agrees
with publish. -/
def publish_f (gavail : List Bool) (parseTs : String → Option Nat)
    (st : SState) (data : ReqEvent) : SState × Nat :=
  match data.topic, data.event_id, data.timestamp, data.source, data.payload with
  | some tp, some eid, some tsStr, some src, some pl =>
    match parseTs tsStr with
    | none => (st, 400)
    | some ts =>
      let st1 : SState := { st with queue := st.queue ++ [⟨tp, eid, src, ts, pl⟩] }
      match increment_received gavail st1.db with
      | Except.ok db1 => ({ st1 with db := db1 }, 202)
      | Except.error _ => (st1, 500)
  | _, _, _, _, _ => (st, 400)

/-- Sequential publish_f calls, one gateway availability schedule per
request, keeping only the state. -/
def publishAll_f (parseTs : String → Option Nat) (gs : List (List Bool))
    (st : SState) : List ReqEvent → SState
  | [] => st
  | r :: rest =>
    publishAll_f parseTs gs.tail (publish_f (gs.headD [true]) parseTs st r).1 rest

/-- Whether the gateway accepts the event: all five required fields present
and the timestamp parseable. -/
def validReq (parseTs : String → Option Nat) (e : ReqEvent) : Bool :=
  e.topic.isSome && e.event_id.isSome &&
    (match e.timestamp with
     | none => false
     | some s => (parseTs s).isSome) &&
    e.source.isSome && e.payload.isSome

/-- Index of the first invalid event of a batch (the whole length when every
event is valid). -/
def firstInvalid (parseTs : String → Option Nat) : List ReqEvent → Nat
  | [] => 0
  | e :: rest =>
    if validReq parseTs e then firstInvalid parseTs rest + 1 else 0

/-- Sequential composition of publish calls, keeping only the state. -/
def publishAll (parseTs : String → Option Nat) (st : SState) :
    List ReqEvent → SState
  | [] => st
  | r :: rest => publishAll parseTs (publish parseTs st r).1 rest

/-- Enqueue: event_queue.append executed under the queue lock. -/
def enqueue (q : List QEvent) (e : QEvent) : List QEvent := q ++ [e]

/-- Dequeue: event_queue.pop of index 0 executed under the queue lock,
returning the head (when present) and the remaining queue. -/
def dequeue : List QEvent → Option QEvent × List QEvent
  | [] => (none, [])
  | e :: rest => (some e, rest)

/-- Repeated dequeue, collecting items in the order workers receive them;
the fuel argument makes the recursion structural. -/
def drainFuel : Nat → List QEvent → List QEvent
  | 0, _ => []
  | n + 1, q =>
    match dequeue q with
    | (none, _) => []
    | (some e, rest) => e :: drainFuel n rest

/-- Dequeue until the queue is empty, collecting every claimed item. -/
def drainAll (q : List QEvent) : List QEvent := drainFuel q.length q

/-- Embedding of the worker loop over a list of claimed events.  The schedule
gives, per iteration, the connection availability and the injected fault.
The worker has no exception handler around insert_event, so a raised
connection error escapes the loop and kills the thread (the Except.error
case); a returned Failed outcome is only logged and the worker continues. -/
def worker_run (sched : List (List Bool × Fault)) (db : DB) :
    List QEvent → Except String DB
  | [] => Except.ok db
  | e :: rest =>
    let s := sched.headD ([true], Fault.fnone)
    match insert_event s.1 s.2 db e with
    | Except.ok (db1, _, _) => worker_run sched.tail db1 rest
    | Except.error msg => Except.error msg

/-- Workers draining the whole queue with the store reachable: each claimed
event goes through insert_event with the scheduled in-transaction fault. -/
def drainQ (faults : List Fault) (db : DB) : List QEvent → DB
  | [] => db
  | e :: rest =>
    match insert_event [true] (faults.headD Fault.fnone) db e with
    | Except.ok (db1, _, _) => drainQ faults.tail db1 rest
    | Except.error _ => drainQ faults.tail db rest

/-- Submitting the same event repeatedly: n consecutive insert_event calls
with the store available and no injected fault, collecting the returned
outcome pairs in call order. -/
def iterInsert : Nat → DB → QEvent → DB × List (Bool × Bool)
  | 0, db, _ => (db, [])
  | n + 1, db, ev =>
    match insert_event [true] Fault.fnone db ev with
    | Except.ok (db1, s, d) =>
      let r := iterInsert n db1 ev
      (r.1, (s, d) :: r.2)
    | Except.error _ => (db, [])

/-- Number of Stored Records carrying the given event_id. -/
def countRecords (db : DB) (id : String) : Nat :=
  (db.records.filter (fun r => decide (r.event_id = id))).length

/-- The rows the listing query ranges over: all records, or the records of
the requested topic (the WHERE clause). -/
def topicRows (db : DB) (topic : Option String) : List EventRec :=
  match topic with
  | some t => db.records.filter (fun r => decide (r.topic = t))
  | none => db.records

/-- Comparison used by ORDER BY received_at DESC. -/
def descBy (a b : EventRec) : Bool := decide (b.received_at ≤ a.received_at)

/-- Embedding of get_events_from_db: SELECT optionally filtered by topic,
ORDER BY received_at DESC, OFFSET offset, LIMIT limit. -/
def get_events_from_db (db : DB) (topic : Option String) (limit offset : Nat) :
    List EventRec :=
  ((((topicRows db topic).mergeSort descBy).drop offset).take limit)

/-- Initial durable state right after init_database on a fresh store. -/
def initDB : DB := ⟨[], 0, 0, 0, 0⟩

/-- Initial server state: empty queue, fresh store. -/
def initState : SState := ⟨[], initDB⟩

def tsGood : String := "2025-01-01T00:00:00+00:00"

/-- Concrete timestamp parser used for witnesses: accepts one fixed string. -/
def pts0 (s : String) : Option Nat := if s = tsGood then some 0 else none

def evA : QEvent := ⟨"t", "e1", "s", 0, "p"⟩

def evB : QEvent := ⟨"t", "e2", "s", 0, "p"⟩

def goodReq : ReqEvent :=
  ⟨some evA.topic, some evA.event_id, some tsGood, some evA.source, some evA.payload⟩

def badReq : ReqEvent :=
  ⟨none, some evB.event_id, some tsGood, some evB.source, some evB.payload⟩

def goodQ : QEvent := ⟨"t", "e1", "s", 0, "p"⟩

/-- Durable state reached by submitting one valid event while the gateway
cannot reach the store for its received update, then draining the queue. -/
def ceDB : DB :=
  drainQ [] (publish_f (List.replicate 5 false) pts0 initState goodReq).1.db
    (publish_f (List.replicate 5 false) pts0 initState goodReq).1.queue

/-- Durable state after publishing a request sequence through the fallible
gateway from the initial state and then draining the whole queue under a
worker fault schedule. -/
def afterDrainF (pts : String → Option Nat) (gs : List (List Bool))
    (reqs : List ReqEvent) (faults : List Fault) : DB :=
  drainQ faults (publishAll_f pts gs initState reqs).db
    (publishAll_f pts gs initState reqs).queue

theorem insert_event_noconn (avail : List Bool) (f : Fault) (db : DB)
    (ev : QEvent) (h : (avail.take 5).any (fun b => b) = false) :
    insert_event avail f db ev = Except.error connErrMsg := by
  simp [insert_event, get_db_connection, h]

theorem insert_event_conn (avail : List Bool) (f : Fault) (db : DB)
    (ev : QEvent) (h : (avail.take 5).any (fun b => b) = true) :
    insert_event avail f db ev = insert_event [true] f db ev := by
  simp [insert_event, get_db_connection, h]

theorem insertEvent_cases (f : Fault) (db : DB) (ev : QEvent) :
    (insert_event [true] f db ev = Except.ok (createdDB db ev, true, false)
      ∧ dupKey db ev.event_id = false ∧ f = Fault.fnone)
    ∨ (insert_event [true] f db ev = Except.ok (dupDB db, true, true)
      ∧ dupKey db ev.event_id = true ∧ f ≠ Fault.fInsert)
    ∨ (insert_event [true] f db ev = Except.ok (db, false, false)
      ∧ (f = Fault.fInsert ∨ (dupKey db ev.event_id = false ∧ f ≠ Fault.fnone))) := by
  cases f <;> cases hd : dupKey db ev.event_id <;>
    simp [insert_event, get_db_connection, txnAttempt, insertStmt, updateUnique,
      commitStmt, createdDB, dupDB, hd, Except.bind]

/-- Claim C2: with a connection, insert_event (persist_idempotent) has exactly
three terminal outcomes: when the insert succeeds it commits the new record
together with the unique_processed increment and returns Created =
(true, false); when the insert is rejected because the event_id already
exists it rolls the insert back, durably records the duplicate observation
(only duplicate_dropped moves) and returns Duplicate = (true, true); on any
other failure it rolls back, leaves the durable state unchanged and returns
Failed = (false, false). -/
theorem persist_three_outcomes (f : Fault) (db : DB) (ev : QEvent) :
    (insert_event [true] f db ev = Except.ok (createdDB db ev, true, false)
      ∧ dupKey db ev.event_id = false ∧ f = Fault.fnone)
    ∨ (insert_event [true] f db ev = Except.ok (dupDB db, true, true)
      ∧ dupKey db ev.event_id = true ∧ f ≠ Fault.fInsert)
    ∨ (insert_event [true] f db ev = Except.ok (db, false, false)
      ∧ (f = Fault.fInsert ∨ (dupKey db ev.event_id = false ∧ f ≠ Fault.fnone))) :=
  insertEvent_cases f db ev

theorem dupKey_false_forall (db : DB) (id : String) (h : dupKey db id = false) :
    ∀ r ∈ db.records, ¬(r.event_id = id) := by
  simpa [dupKey] using h

theorem countRecords_eq_zero (db : DB) (id : String)
    (h : dupKey db id = false) : countRecords db id = 0 := by
  have h2 := dupKey_false_forall db id h
  simp only [countRecords, List.length_eq_zero]
  rw [List.filter_eq_nil_iff]
  intro a ha
  simpa using h2 a ha

theorem countRecords_createdDB (db : DB) (ev : QEvent) :
    countRecords (createdDB db ev) ev.event_id
      = countRecords db ev.event_id + 1 := by
  simp [countRecords, createdDB, newRec, List.filter_append]

theorem dupKey_createdDB (db : DB) (ev : QEvent) :
    dupKey (createdDB db ev) ev.event_id = true := by
  simp [dupKey, createdDB, newRec]

theorem iterInsert_dup (n : Nat) (db : DB) (ev : QEvent)
    (h : dupKey db ev.event_id = true) :
    (iterInsert n db ev).1.records = db.records
    ∧ (iterInsert n db ev).1.unique_processed = db.unique_processed
    ∧ (iterInsert n db ev).1.duplicate_dropped = db.duplicate_dropped + n
    ∧ (iterInsert n db ev).1.received = db.received
    ∧ (iterInsert n db ev).2 = List.replicate n (true, true) := by
  induction n generalizing db with
  | zero => simp [iterInsert]
  | succ n ih =>
    have hstep : insert_event [true] Fault.fnone db ev
        = Except.ok (dupDB db, true, true) := by
      simp [insert_event, get_db_connection, txnAttempt, insertStmt, h, Except.bind]
    have hd2 : dupKey (dupDB db) ev.event_id = true := by
      simpa [dupKey, dupDB] using h
    obtain ⟨r1, r2, r3, r4, r5⟩ := ih (dupDB db) hd2
    have g1 : (iterInsert (n + 1) db ev).1 = (iterInsert n (dupDB db) ev).1 := by
      simp [iterInsert, hstep]
    have g2 : (iterInsert (n + 1) db ev).2
        = (true, true) :: (iterInsert n (dupDB db) ev).2 := by
      simp [iterInsert, hstep]
    have hrec : (dupDB db).records = db.records := rfl
    have huniq : (dupDB db).unique_processed = db.unique_processed := rfl
    have hdup : (dupDB db).duplicate_dropped = db.duplicate_dropped + 1 := rfl
    have hrecv : (dupDB db).received = db.received := rfl
    rw [g1, g2]
    refine ⟨by rw [r1, hrec], by rw [r2, huniq], by rw [r3, hdup]; omega,
      by rw [r4, hrecv], by rw [r5, List.replicate_succ]⟩

/-- Claim C1: starting from a store holding no record for the event_id of ev,
submitting the same event N times (N positive, store available, no injected
faults) results in exactly one Stored Record for that event_id, one
unique_processed increment from the first call, which returns Created =
(true, false), and N - 1 duplicate_dropped increments from the remaining
calls, each of which returns Duplicate = (true, true). -/
theorem idempotent_submission (N : Nat) (db : DB) (ev : QEvent)
    (hN : 0 < N) (hnew : dupKey db ev.event_id = false) :
    countRecords (iterInsert N db ev).1 ev.event_id = 1
    ∧ (iterInsert N db ev).1.unique_processed = db.unique_processed + 1
    ∧ (iterInsert N db ev).1.duplicate_dropped = db.duplicate_dropped + (N - 1)
    ∧ (iterInsert N db ev).2
        = (true, false) :: List.replicate (N - 1) (true, true) := by
  obtain ⟨n, rfl⟩ : ∃ n, N = n + 1 := ⟨N - 1, by omega⟩
  have hstep : insert_event [true] Fault.fnone db ev
      = Except.ok (createdDB db ev, true, false) := by
    rcases insertEvent_cases Fault.fnone db ev with ⟨h1, _, _⟩ | ⟨_, hd, _⟩ | ⟨_, hcond⟩
    · exact h1
    · rw [hnew] at hd
      cases hd
    · rcases hcond with h | ⟨_, hne⟩ <;> simp_all
  have g1 : (iterInsert (n + 1) db ev).1 = (iterInsert n (createdDB db ev) ev).1 := by
    simp [iterInsert, hstep]
  have g2 : (iterInsert (n + 1) db ev).2
      = (true, false) :: (iterInsert n (createdDB db ev) ev).2 := by
    simp [iterInsert, hstep]
  obtain ⟨r1, r2, r3, r4, r5⟩ :=
    iterInsert_dup n (createdDB db ev) ev (dupKey_createdDB db ev)
  rw [g1, g2]
  have hcount : countRecords (createdDB db ev) ev.event_id = 1 := by
    rw [countRecords_createdDB, countRecords_eq_zero db ev.event_id hnew]
  have hsub : n + 1 - 1 = n := by omega
  refine ⟨?_, ?_, ?_, ?_⟩
  · simp only [countRecords] at hcount ⊢
    rw [r1]
    exact hcount
  · rw [r2]
    rfl
  · rw [r3, hsub]
    rfl
  · rw [r5, hsub]

theorem idempotent_submission_witness :
    0 < 3 ∧ dupKey initDB evA.event_id = false
    ∧ (countRecords (iterInsert 3 initDB evA).1 evA.event_id = 1
      ∧ (iterInsert 3 initDB evA).1.unique_processed = initDB.unique_processed + 1
      ∧ (iterInsert 3 initDB evA).1.duplicate_dropped
          = initDB.duplicate_dropped + (3 - 1)
      ∧ (iterInsert 3 initDB evA).2
          = (true, false) :: List.replicate (3 - 1) (true, true)) :=
  ⟨by decide, by decide, idempotent_submission 3 initDB evA (by decide) (by decide)⟩

/-- Claim C3: every persist call that reaches a terminal outcome increments
exactly one counter by exactly one: Created = (true, false) adds one to
unique_processed and changes neither duplicate_dropped nor received,
Duplicate = (true, true) adds one to duplicate_dropped and changes neither
unique_processed nor received, and Failed = (false, false) leaves all three
counters unchanged. -/
theorem outcome_counter_increments (avail : List Bool) (f : Fault) (db : DB)
    (ev : QEvent) (db1 : DB) (s d : Bool)
    (h : insert_event avail f db ev = Except.ok (db1, s, d)) :
    ((s, d) = (true, false) →
      db1.unique_processed = db.unique_processed + 1
      ∧ db1.duplicate_dropped = db.duplicate_dropped
      ∧ db1.received = db.received)
    ∧ ((s, d) = (true, true) →
      db1.duplicate_dropped = db.duplicate_dropped + 1
      ∧ db1.unique_processed = db.unique_processed
      ∧ db1.received = db.received)
    ∧ ((s, d) = (false, false) →
      db1.received = db.received
      ∧ db1.unique_processed = db.unique_processed
      ∧ db1.duplicate_dropped = db.duplicate_dropped) := by
  cases hc : (avail.take 5).any (fun b => b) with
  | false =>
    rw [insert_event_noconn avail f db ev hc] at h
    cases h
  | true =>
    rw [insert_event_conn avail f db ev hc] at h
    rcases insertEvent_cases f db ev with ⟨h1, _, _⟩ | ⟨h1, _, _⟩ | ⟨h1, _⟩ <;>
      rw [h1] at h <;>
      simp only [Except.ok.injEq, Prod.mk.injEq] at h <;>
      obtain ⟨e1, e2, e3⟩ := h <;>
      subst e1 <;> subst e2 <;> subst e3 <;>
      simp [createdDB, dupDB]

theorem outcome_counter_increments_witness :
    ((((true : Bool), (false : Bool)) = (true, false)) →
      (createdDB initDB evA).unique_processed = initDB.unique_processed + 1
      ∧ (createdDB initDB evA).duplicate_dropped = initDB.duplicate_dropped
      ∧ (createdDB initDB evA).received = initDB.received)
    ∧ ((((true : Bool), (false : Bool)) = (true, true)) →
      (createdDB initDB evA).duplicate_dropped = initDB.duplicate_dropped + 1
      ∧ (createdDB initDB evA).unique_processed = initDB.unique_processed
      ∧ (createdDB initDB evA).received = initDB.received)
    ∧ ((((true : Bool), (false : Bool)) = (false, false)) →
      (createdDB initDB evA).received = initDB.received
      ∧ (createdDB initDB evA).unique_processed = initDB.unique_processed
      ∧ (createdDB initDB evA).duplicate_dropped = initDB.duplicate_dropped) :=
  outcome_counter_increments [true] Fault.fnone initDB evA
    (createdDB initDB evA) true false rfl

/-- Claim C10: the insert of the Stored Record and the unique_processed
increment form one atomically committed transaction: whatever the fault and
connection schedule, a call of insert_event that returns left the durable
state either with both the new record appended and unique_processed
incremented (the Created outcome) or with records and unique_processed both
exactly as before; no reachable durable state has one without the other. -/
theorem created_atomic (avail : List Bool) (f : Fault) (db : DB) (ev : QEvent)
    (db1 : DB) (s d : Bool)
    (h : insert_event avail f db ev = Except.ok (db1, s, d)) :
    (db1.records = db.records ++ [newRec db ev]
      ∧ db1.unique_processed = db.unique_processed + 1
      ∧ (s, d) = (true, false))
    ∨ (db1.records = db.records
      ∧ db1.unique_processed = db.unique_processed) := by
  cases hc : (avail.take 5).any (fun b => b) with
  | false =>
    rw [insert_event_noconn avail f db ev hc] at h
    cases h
  | true =>
    rw [insert_event_conn avail f db ev hc] at h
    rcases insertEvent_cases f db ev with ⟨h1, _, _⟩ | ⟨h1, _, _⟩ | ⟨h1, _⟩ <;>
      rw [h1] at h <;>
      simp only [Except.ok.injEq, Prod.mk.injEq] at h <;>
      obtain ⟨e1, e2, e3⟩ := h <;>
      subst e1 <;> subst e2 <;> subst e3
    · exact Or.inl ⟨rfl, rfl, rfl⟩
    · exact Or.inr ⟨rfl, rfl⟩
    · exact Or.inr ⟨rfl, rfl⟩

theorem created_atomic_witness :
    ((createdDB initDB evA).records = initDB.records ++ [newRec initDB evA]
      ∧ (createdDB initDB evA).unique_processed = initDB.unique_processed + 1
      ∧ (((true : Bool), (false : Bool)) = (true, false)))
    ∨ ((createdDB initDB evA).records = initDB.records
      ∧ (createdDB initDB evA).unique_processed = initDB.unique_processed) :=
  created_atomic [true] Fault.fnone initDB evA
    (createdDB initDB evA) true false rfl

/-- Claim C4 counterexample: when every connection attempt fails, the persist
attempt does not yield the Failed outcome without raising: insert_event
raises (the connection is obtained before the try block), and a worker
holding a two-item queue dies on the first item without reaching the second,
because the worker loop has no exception handler. -/
theorem conn_failure_raises :
    insert_event (List.replicate 5 false) Fault.fnone initDB evA
      = Except.error connErrMsg
    ∧ worker_run [(List.replicate 5 false, Fault.fnone)] initDB [evA, evB]
      = Except.error connErrMsg := by
  constructor <;> rfl

/-- Claim C4 amended: a store failure raised inside the insert transaction
(any injected fault point, event not a duplicate) yields the Failed outcome
(false, false) without raising, leaves the durable state unchanged, and the
worker continues with the next queued item; only a failure to obtain a
connection escapes insert_event and crashes the worker. -/
theorem txn_failure_yields_failed (f : Fault) (db : DB) (ev : QEvent)
    (rest : List QEvent) (sched : List (List Bool × Fault))
    (hf : f ≠ Fault.fnone) (hnd : dupKey db ev.event_id = false) :
    insert_event [true] f db ev = Except.ok (db, false, false)
    ∧ worker_run (([true], f) :: sched) db (ev :: rest)
      = worker_run sched db rest := by
  have h1 : insert_event [true] f db ev = Except.ok (db, false, false) := by
    rcases insertEvent_cases f db ev with ⟨_, _, hfe⟩ | ⟨_, hd, _⟩ | ⟨h1, _⟩
    · exact absurd hfe hf
    · rw [hnd] at hd
      cases hd
    · exact h1
  refine ⟨h1, ?_⟩
  simp [worker_run, h1]

theorem txn_failure_yields_failed_witness :
    insert_event [true] Fault.fUpdate initDB evA
      = Except.ok (initDB, false, false)
    ∧ worker_run [([true], Fault.fUpdate)] initDB [evA]
      = worker_run [] initDB [] :=
  txn_failure_yields_failed Fault.fUpdate initDB evA [] [] (by decide) (by decide)

/-- Claim C5 counterexample: in a batch whose first event is invalid and
whose second event is valid, the valid event is neither enqueued nor counted
in received, although an individual submit call would accept it; batch
events are therefore not processed independently of each other. -/
theorem batch_not_independent :
    (publish pts0 initState goodReq).1.queue = [goodQ]
    ∧ (publish pts0 initState goodReq).1.db.received = 1
    ∧ (publish_batch pts0 initState [badReq, goodReq]).1.queue = []
    ∧ (publish_batch pts0 initState [badReq, goodReq]).1.db.received = 0
    ∧ (publish_batch pts0 initState [badReq, goodReq]).2.1 = 400 := by
  refine ⟨rfl, rfl, rfl, rfl, rfl⟩

theorem batchGo_spec (events : List ReqEvent) (pts : String → Option Nat) :
    ∀ (st : SState) (c : Nat),
    batchGo pts st c events =
      (publishAll pts st (events.take (firstInvalid pts events)),
       if firstInvalid pts events = events.length then 202 else 400,
       c + firstInvalid pts events) := by
  induction events with
  | nil =>
    intro st c
    simp [batchGo, firstInvalid, publishAll]
  | cons e rest ih =>
    intro st c
    rcases e with ⟨t, i, ts, src, pl⟩
    rcases t with _ | tv
    · simp [batchGo, firstInvalid, validReq, publishAll]
    rcases i with _ | iv
    · simp [batchGo, firstInvalid, validReq, publishAll]
    rcases ts with _ | tsv
    · simp [batchGo, firstInvalid, validReq, publishAll]
    rcases src with _ | sv
    · simp [batchGo, firstInvalid, validReq, publishAll]
    rcases pl with _ | pv
    · simp [batchGo, firstInvalid, validReq, publishAll]
    cases hp : pts tsv with
    | none => simp [batchGo, firstInvalid, validReq, hp, publishAll]
    | some v =>
      have hv : validReq pts ⟨some tv, some iv, some tsv, some sv, some pv⟩ = true := by
        simp [validReq, hp]
      have lhs : batchGo pts st c
            (⟨some tv, some iv, some tsv, some sv, some pv⟩ :: rest)
          = batchGo pts
              (publish pts st ⟨some tv, some iv, some tsv, some sv, some pv⟩).1
              (c + 1) rest := by
        simp [batchGo, publish, hp]
      rw [lhs, ih]
      simp [firstInvalid, hv, publishAll, publish, hp, List.take_succ_cons,
        Nat.add_assoc, Nat.add_comm, Nat.add_left_comm]

/-- Claim C5 amended: publish batch processes events sequentially, each
exactly as an individual submit call would, but only up to the first invalid
event: the valid prefix is enqueued and counted one event at a time; the
first invalid event, when present, aborts the batch with a 400 response,
leaving it and all later events unprocessed; when every event is valid the
whole batch is processed and 202 is returned with the processed count. -/
theorem batch_stops_at_first_invalid (pts : String → Option Nat)
    (st : SState) (events : List ReqEvent) :
    publish_batch pts st events =
      (publishAll pts st (events.take (firstInvalid pts events)),
       if firstInvalid pts events = events.length then 202 else 400,
       firstInvalid pts events) := by
  simpa [publish_batch] using batchGo_spec events pts st 0

/-- Claim C6: a malformed submitted event (missing required field or
unparseable timestamp) is rejected with status 400 at the gateway boundary
before reaching the core: publish returns the state unchanged, so nothing is
appended to the ingest queue and no counter, received included, changes. -/
theorem validation_rejected_before_core (pts : String → Option Nat)
    (st : SState) (data : ReqEvent) (h : validReq pts data = false) :
    publish pts st data = (st, 400) := by
  rcases data with ⟨t, i, ts, src, pl⟩
  rcases t with _ | tv
  · simp [publish]
  rcases i with _ | iv
  · simp [publish]
  rcases ts with _ | tsv
  · simp [publish]
  rcases src with _ | sv
  · simp [publish]
  rcases pl with _ | pv
  · simp [publish]
  cases hp : pts tsv with
  | none => simp [publish, hp]
  | some v =>
    exfalso
    simp [validReq, hp] at h

theorem validation_rejected_before_core_witness :
    publish pts0 initState badReq = (initState, 400) :=
  validation_rejected_before_core pts0 initState badReq (by decide)

theorem foldl_enqueue (es : List QEvent) :
    ∀ q : List QEvent, es.foldl enqueue q = q ++ es := by
  induction es with
  | nil => intro q; simp
  | cons e rest ih => intro q; simp [List.foldl_cons, enqueue, ih]

theorem drainFuel_self (q : List QEvent) : drainFuel q.length q = q := by
  induction q with
  | nil => rfl
  | cons e rest ih => simp [drainFuel, dequeue, ih]

/-- Claim C8: the ingest queue is FIFO and lossless: enqueue appends at the
tail, dequeue removes and returns the head (so an event enqueued earlier is
made available no later than one enqueued after it), and draining a queue
built by any sequence of enqueues yields exactly the enqueued items, once
each, in enqueue order; a dequeued item is removed from the queue as it is
returned, so exactly one worker receives it. -/
theorem ingest_queue_fifo (es q : List QEvent) (e : QEvent) :
    enqueue q e = q ++ [e]
    ∧ dequeue (e :: q) = (some e, q)
    ∧ drainAll (es.foldl enqueue []) = es := by
  refine ⟨rfl, rfl, ?_⟩
  simp [drainAll, foldl_enqueue, drainFuel_self]

/-- Claim C9: the listing query returns stored records in received_at
descending order, restricted to the requested topic when a filter is given,
and paginated: it returns the slice of that ordering that skips the first
offset rows and holds at most limit rows. -/
theorem listing_query_spec (db : DB) (topic : Option String)
    (limit offset : Nat) :
    ((topicRows db topic).mergeSort descBy).Perm (topicRows db topic)
    ∧ ((topicRows db topic).mergeSort descBy).Pairwise
        (fun a b => b.received_at ≤ a.received_at)
    ∧ get_events_from_db db topic limit offset
        = ((((topicRows db topic).mergeSort descBy).drop offset).take limit)
    ∧ (get_events_from_db db topic limit offset).length ≤ limit
    ∧ (∀ r ∈ get_events_from_db db topic limit offset,
        ∀ t, topic = some t → r.topic = t) := by
  refine ⟨List.mergeSort_perm _ descBy, ?_, rfl, ?_, ?_⟩
  · have htrans : ∀ a b c : EventRec, descBy a b → descBy b c → descBy a c := by
      intro a b c hab hbc
      simp [descBy] at *
      omega
    have htotal : ∀ a b : EventRec, descBy a b || descBy b a := by
      intro a b
      simp [descBy]
      omega
    have hs := List.sorted_mergeSort htrans htotal (topicRows db topic)
    exact hs.imp (fun h => by simpa [descBy] using h)
  · rw [get_events_from_db, List.length_take]
    exact min_le_left _ _
  · intro r hr t ht
    subst ht
    have h1 : r ∈ ((topicRows db (some t)).mergeSort descBy).drop offset :=
      List.mem_of_mem_take hr
    have h2 : r ∈ (topicRows db (some t)).mergeSort descBy :=
      List.mem_of_mem_drop h1
    have h3 : r ∈ topicRows db (some t) :=
      (List.mergeSort_perm (topicRows db (some t)) descBy).mem_iff.mp h2
    have h4 := List.mem_filter.mp h3
    exact of_decide_eq_true h4.2

theorem publish_cases (pts : String → Option Nat) (st : SState) (r : ReqEvent) :
    (publish pts st r).1 = st
    ∨ ∃ qe : QEvent, (publish pts st r).1
        = ⟨st.queue ++ [qe], bumpReceived st.db⟩ := by
  rcases r with ⟨t, i, ts, src, pl⟩
  rcases t with _ | tv
  · exact Or.inl rfl
  rcases i with _ | iv
  · exact Or.inl rfl
  rcases ts with _ | tsv
  · exact Or.inl rfl
  rcases src with _ | sv
  · exact Or.inl rfl
  rcases pl with _ | pv
  · exact Or.inl rfl
  cases hp : pts tsv with
  | none => exact Or.inl (by simp [publish, hp])
  | some v => exact Or.inr ⟨⟨tv, iv, sv, v, pv⟩, by simp [publish, hp]⟩

/-- Consistency of a server state: the counters can still account for every
queued event, unique_processed counts the stored records, and stored
event_id values are pairwise distinct. -/
def InvP (st : SState) : Prop :=
  st.db.unique_processed + st.db.duplicate_dropped + st.queue.length
      ≤ st.db.received
  ∧ st.db.unique_processed = st.db.records.length
  ∧ (st.db.records.map EventRec.event_id).Nodup

theorem publishAll_inv (pts : String → Option Nat) (reqs : List ReqEvent) :
    ∀ st : SState, InvP st → InvP (publishAll pts st reqs) := by
  induction reqs with
  | nil => intro st h; exact h
  | cons r rest ih =>
    intro st h
    have step : InvP (publish pts st r).1 := by
      rcases publish_cases pts st r with he | ⟨qe, he⟩
      · rw [he]; exact h
      · rw [he]
        obtain ⟨h1, h2, h3⟩ := h
        refine ⟨?_, h2, h3⟩
        simp only [bumpReceived, List.length_append, List.length_cons,
          List.length_nil]
        omega
    exact ih _ step

theorem drainQ_inv (q : List QEvent) :
    ∀ (faults : List Fault) (db : DB),
    db.unique_processed + db.duplicate_dropped + q.length ≤ db.received →
    db.unique_processed = db.records.length →
    (db.records.map EventRec.event_id).Nodup →
    (drainQ faults db q).unique_processed
        + (drainQ faults db q).duplicate_dropped
      ≤ (drainQ faults db q).received
    ∧ (drainQ faults db q).unique_processed
        = (drainQ faults db q).records.length
    ∧ ((drainQ faults db q).records.map EventRec.event_id).Nodup := by
  induction q with
  | nil =>
    intro faults db h1 h2 h3
    simp only [drainQ]
    exact ⟨by omega, h2, h3⟩
  | cons e rest ih =>
    intro faults db h1 h2 h3
    simp only [List.length_cons] at h1
    rcases insertEvent_cases (faults.headD Fault.fnone) db e with
      ⟨hstep, hnd, _⟩ | ⟨hstep, _, _⟩ | ⟨hstep, _⟩
    · have e1 : drainQ faults db (e :: rest)
          = drainQ faults.tail (createdDB db e) rest := by
        simp only [drainQ]
        rw [hstep]
      rw [e1]
      apply ih
      · simp only [createdDB]
        omega
      · simp [createdDB, List.length_append, h2]
      · have hnotmem : e.event_id ∉ db.records.map EventRec.event_id := by
          intro hmem
          obtain ⟨r, hr, hre⟩ := List.mem_map.mp hmem
          exact (dupKey_false_forall db e.event_id hnd) r hr hre
        simp [createdDB, newRec, List.nodup_append, h3, hnotmem]
    · have e1 : drainQ faults db (e :: rest)
          = drainQ faults.tail (dupDB db) rest := by
        simp only [drainQ]
        rw [hstep]
      rw [e1]
      apply ih
      · simp only [dupDB]
        omega
      · exact h2
      · exact h3
    · have e1 : drainQ faults db (e :: rest)
          = drainQ faults.tail db rest := by
        simp only [drainQ]
        rw [hstep]
      rw [e1]
      exact ih faults.tail db (by omega) h2 h3


/-- Claim C7 counterexample: submit one valid event while the gateway cannot
reach the store for its received update (increment_received raises after the
event was already appended to the queue, so the endpoint answers 500 with
the event still enqueued), then drain the queue: the event is persisted, so
the fully drained state has unique_processed = 1, duplicate_dropped = 0 but
received = 0, and unique_processed + duplicate_dropped exceeds received,
refuting the claimed invariant. -/
theorem drained_invariant_fails :
    (publish_f (List.replicate 5 false) pts0 initState goodReq).2 = 500
    ∧ (publish_f (List.replicate 5 false) pts0 initState goodReq).1.queue
        = [goodQ]
    ∧ ceDB.records.length = 1
    ∧ ceDB.unique_processed = 1
    ∧ ceDB.duplicate_dropped = 0
    ∧ ceDB.received = 0
    ∧ ¬(ceDB.unique_processed + ceDB.duplicate_dropped ≤ ceDB.received) := by
  refine ⟨rfl, rfl, rfl, rfl, rfl, rfl, ?_⟩
  decide

theorem publish_f_conn (g : List Bool) (pts : String → Option Nat)
    (st : SState) (r : ReqEvent)
    (hc : (g.take 5).any (fun b => b) = true) :
    publish_f g pts st r = publish pts st r := by
  rcases r with ⟨t, i, ts, src, pl⟩
  rcases t with _ | tv
  · rfl
  rcases i with _ | iv
  · rfl
  rcases ts with _ | tsv
  · rfl
  rcases src with _ | sv
  · rfl
  rcases pl with _ | pv
  · rfl
  cases hp : pts tsv with
  | none => simp [publish_f, publish, hp]
  | some v =>
    simp [publish_f, publish, hp, increment_received, get_db_connection, hc]

theorem publishAll_f_ok (pts : String → Option Nat) (reqs : List ReqEvent) :
    ∀ (gs : List (List Bool)) (st : SState),
    (∀ a ∈ gs, (a.take 5).any (fun b => b) = true) →
    publishAll_f pts gs st reqs = publishAll pts st reqs := by
  induction reqs with
  | nil => intro gs st hg; rfl
  | cons r rest ih =>
    intro gs st hg
    have hhead : ((gs.headD [true]).take 5).any (fun b => b) = true := by
      cases gs with
      | nil => rfl
      | cons a tl => exact hg a (List.mem_cons_self a tl)
    have htl : ∀ a ∈ gs.tail, (a.take 5).any (fun b => b) = true := by
      intro a ha
      cases gs with
      | nil => exact absurd ha (List.not_mem_nil a)
      | cons b tl => exact hg a (List.mem_cons_of_mem b ha)
    calc publishAll_f pts gs st (r :: rest)
        = publishAll_f pts gs.tail (publish_f (gs.headD [true]) pts st r).1 rest :=
          rfl
      _ = publishAll pts (publish_f (gs.headD [true]) pts st r).1 rest :=
          ih gs.tail _ htl
      _ = publishAll pts (publish pts st r).1 rest := by
          rw [publish_f_conn _ _ _ _ hhead]
      _ = publishAll pts st (r :: rest) := rfl

theorem publish_f_db (g : List Bool) (pts : String → Option Nat)
    (st : SState) (r : ReqEvent) :
    (publish_f g pts st r).1.db.records = st.db.records
    ∧ (publish_f g pts st r).1.db.unique_processed = st.db.unique_processed
    ∧ (publish_f g pts st r).1.db.duplicate_dropped = st.db.duplicate_dropped := by
  rcases r with ⟨t, i, ts, src, pl⟩
  rcases t with _ | tv
  · exact ⟨rfl, rfl, rfl⟩
  rcases i with _ | iv
  · exact ⟨rfl, rfl, rfl⟩
  rcases ts with _ | tsv
  · exact ⟨rfl, rfl, rfl⟩
  rcases src with _ | sv
  · exact ⟨rfl, rfl, rfl⟩
  rcases pl with _ | pv
  · exact ⟨rfl, rfl, rfl⟩
  cases hp : pts tsv with
  | none => simp [publish_f, hp]
  | some v =>
    cases hc : (g.take 5).any (fun b => b) with
    | false => simp [publish_f, hp, increment_received, get_db_connection, hc]
    | true =>
      simp [publish_f, hp, increment_received, get_db_connection, hc, bumpReceived]

theorem publishAll_f_db (pts : String → Option Nat) (reqs : List ReqEvent) :
    ∀ (gs : List (List Bool)) (st : SState),
    (publishAll_f pts gs st reqs).db.records = st.db.records
    ∧ (publishAll_f pts gs st reqs).db.unique_processed
        = st.db.unique_processed
    ∧ (publishAll_f pts gs st reqs).db.duplicate_dropped
        = st.db.duplicate_dropped := by
  induction reqs with
  | nil => intro gs st; exact ⟨rfl, rfl, rfl⟩
  | cons r rest ih =>
    intro gs st
    obtain ⟨a1, a2, a3⟩ := publish_f_db (gs.headD [true]) pts st r
    obtain ⟨b1, b2, b3⟩ := ih gs.tail (publish_f (gs.headD [true]) pts st r).1
    exact ⟨b1.trans a1, b2.trans a2, b3.trans a3⟩

theorem drainQ_recs (q : List QEvent) :
    ∀ (faults : List Fault) (db : DB),
    db.unique_processed = db.records.length →
    (db.records.map EventRec.event_id).Nodup →
    (drainQ faults db q).unique_processed
        = (drainQ faults db q).records.length
    ∧ ((drainQ faults db q).records.map EventRec.event_id).Nodup := by
  induction q with
  | nil =>
    intro faults db h2 h3
    exact ⟨h2, h3⟩
  | cons e rest ih =>
    intro faults db h2 h3
    rcases insertEvent_cases (faults.headD Fault.fnone) db e with
      ⟨hstep, hnd, _⟩ | ⟨hstep, _, _⟩ | ⟨hstep, _⟩
    · have e1 : drainQ faults db (e :: rest)
          = drainQ faults.tail (createdDB db e) rest := by
        simp only [drainQ]
        rw [hstep]
      rw [e1]
      apply ih
      · simp [createdDB, List.length_append, h2]
      · have hnotmem : e.event_id ∉ db.records.map EventRec.event_id := by
          intro hmem
          obtain ⟨r, hr, hre⟩ := List.mem_map.mp hmem
          exact (dupKey_false_forall db e.event_id hnd) r hr hre
        simp [createdDB, newRec, List.nodup_append, h3, hnotmem]
    · have e1 : drainQ faults db (e :: rest)
          = drainQ faults.tail (dupDB db) rest := by
        simp only [drainQ]
        rw [hstep]
      rw [e1]
      exact ih faults.tail (dupDB db) h2 h3
    · have e1 : drainQ faults db (e :: rest)
          = drainQ faults.tail db rest := by
        simp only [drainQ]
        rw [hstep]
      rw [e1]
      exact ih faults.tail db h2 h3

/-- Claim C7 amended: from the initial state, for every request sequence,
gateway availability schedule and worker fault schedule, once all enqueued
events have been drained, unique_processed equals the number of Stored
Records, whose event_id values are pairwise distinct (so it counts the
distinct event_id values ever successfully persisted), regardless of gateway
failures; and provided every increment_received call at the gateway could
reach the store, unique_processed + duplicate_dropped is at most received.
When increment_received raises after its event was already enqueued, that
event is persisted without being counted in received, and the inequality can
fail, as the counterexample shows. -/
theorem drained_counter_invariant_gw (pts : String → Option Nat)
    (gs : List (List Bool)) (reqs : List ReqEvent) (faults : List Fault) :
    (afterDrainF pts gs reqs faults).unique_processed
        = (afterDrainF pts gs reqs faults).records.length
    ∧ ((afterDrainF pts gs reqs faults).records.map EventRec.event_id).Nodup
    ∧ ((∀ a ∈ gs, (a.take 5).any (fun b => b) = true) →
        (afterDrainF pts gs reqs faults).unique_processed
            + (afterDrainF pts gs reqs faults).duplicate_dropped
          ≤ (afterDrainF pts gs reqs faults).received) := by
  simp only [afterDrainF]
  obtain ⟨p1, p2, p3⟩ := publishAll_f_db pts reqs gs initState
  have h2 : (publishAll_f pts gs initState reqs).db.unique_processed
      = (publishAll_f pts gs initState reqs).db.records.length := by
    rw [p1, p2]
    rfl
  have h3 : ((publishAll_f pts gs initState reqs).db.records.map
      EventRec.event_id).Nodup := by
    rw [p1]
    simp [initState, initDB]
  obtain ⟨r2, r3⟩ := drainQ_recs (publishAll_f pts gs initState reqs).queue
    faults (publishAll_f pts gs initState reqs).db h2 h3
  refine ⟨r2, r3, ?_⟩
  intro hg
  have heq : publishAll_f pts gs initState reqs = publishAll pts initState reqs :=
    publishAll_f_ok pts reqs gs initState hg
  have h0 : InvP initState := by
    refine ⟨?_, ?_, ?_⟩ <;> simp [InvP, initState, initDB]
  have h1 := publishAll_inv pts reqs initState h0
  have hfin := drainQ_inv (publishAll pts initState reqs).queue faults
    (publishAll pts initState reqs).db h1.1 h1.2.1 h1.2.2
  rw [heq]
  exact hfin.1

theorem drained_counter_invariant_gw_witness :
    (afterDrainF pts0 [[true]] [goodReq] []).unique_processed
        = (afterDrainF pts0 [[true]] [goodReq] []).records.length
    ∧ ((afterDrainF pts0 [[true]] [goodReq] []).records.map
        EventRec.event_id).Nodup
    ∧ (afterDrainF pts0 [[true]] [goodReq] []).unique_processed
        + (afterDrainF pts0 [[true]] [goodReq] []).duplicate_dropped
      ≤ (afterDrainF pts0 [[true]] [goodReq] []).received := by
  obtain ⟨w1, w2, w3⟩ := drained_counter_invariant_gw pts0 [[true]] [goodReq] []
  exact ⟨w1, w2, w3 (by decide)⟩
